import Mathlib

set_option autoImplicit false

/-!
Verification of the Titan object model and serialization substrate
(`src/TitanMain/Core/Object.h`, `Object.cpp`, `Archive.h`) against its
natural-language specification.

Machine integers are modelled as `Nat`/`Int` with explicit reduction
modulo `2 ^ w` where the C++ type has width `w`.  C++ strings are
modelled as `List Char`; byte buffers as `List Nat` with entries below
256.
-/

namespace Titan

/-! ## Reference counting (`ObjectBase`, `Object.cpp` lines 9-42)

`RefCount` is a `std::atomic<int32_t>`; we model its raw two's-complement
bits as a natural number below `2 ^ 32` (`fetch_add`/`fetch_sub` on a
signed atomic wrap).  `delete this` in `Release` is modelled by a
destruction counter, so that destruction is observable. -/

def UINT32_MOD : Nat := 2 ^ 32

/-- Reinterpret 32 raw bits as the signed `int32_t` that
`GetRefCount()` returns. -/
def toInt32 (bits : Nat) : Int :=
  if bits < 2 ^ 31 then (bits : Int) else (bits : Int) - 2 ^ 32

/-- State of one entity's intrusive counter: the raw `RefCount` bits and
the number of times `delete this` has run. -/
structure RefState where
  bits : Nat
  destroyed : Nat
deriving DecidableEq, Repr

/-- `ObjectBase::ObjectBase()`: `RefCount.store(1)` (Object.cpp line 11). -/
def initRefState : RefState := { bits := 1, destroyed := 0 }

/-- `ObjectBase::AddRef()`: `RefCount.fetch_add(1)` (Object.cpp line 32). -/
def addRef (s : RefState) : RefState :=
  { s with bits := (s.bits + 1) % UINT32_MOD }

/-- `ObjectBase::Release()`: `fetch_sub(1)` returns the previous value;
if it was `1` the entity is deleted (Object.cpp lines 35-42). -/
def release (s : RefState) : RefState :=
  { bits := (s.bits + (UINT32_MOD - 1)) % UINT32_MOD
    destroyed := if s.bits = 1 then s.destroyed + 1 else s.destroyed }

/-- `ObjectBase::GetRefCount()`: `RefCount.load()` as `int32_t`
(Object.h line 96). -/
def getRefCount (s : RefState) : Int := toInt32 s.bits

inductive RefOp where
  | addRef
  | release
deriving DecidableEq, Repr

/-- One `AddRef()` or `Release()` call. -/
def stepRef (s : RefState) : RefOp → RefState
  | .addRef => addRef s
  | .release => release s

/-- Run a sequence of `AddRef`/`Release` calls on the counter. -/
def runRefOps (s : RefState) : List RefOp → RefState
  | [] => s
  | op :: ops => runRefOps (stepRef s op) ops

def numAdds (ops : List RefOp) : Nat := ops.count .addRef

def numReleases (ops : List RefOp) : Nat := ops.count .release

/-- The entity was kept alive: no `Release` ever observed the counter
at `1`, so `delete this` never ran. -/
def keptAlive (ops : List RefOp) : Prop :=
  (runRefOps initRefState ops).destroyed = 0

instance (ops : List RefOp) : Decidable (keptAlive ops) := by
  unfold keptAlive; infer_instance

theorem destroyed_mono (ops : List RefOp) :
    ∀ s : RefState, s.destroyed ≤ (runRefOps s ops).destroyed := by
  induction ops with
  | nil => intro s; exact Nat.le_refl _
  | cons op rest ih =>
      intro s
      rw [runRefOps]
      refine Nat.le_trans ?_ (ih (stepRef s op))
      cases op with
      | addRef => simp [stepRef, addRef]
      | release =>
          simp only [stepRef, release]
          by_cases h : s.bits = 1 <;> simp [h]

theorem runRefOps_alive (ops : List RefOp) :
    ∀ b d : Nat, 1 ≤ b → b + numAdds ops < 2 ^ 31 →
    (runRefOps ⟨b, d⟩ ops).destroyed = d →
    numReleases ops < b + numAdds ops ∧
    (runRefOps ⟨b, d⟩ ops).bits = b + numAdds ops - numReleases ops := by
  induction ops with
  | nil =>
      intro b d hb _ _
      constructor
      · simpa [numReleases, numAdds] using hb
      · simp [runRefOps, numAdds, numReleases]
  | cons op rest ih =>
      intro b d hb hlt hdest
      have hM : UINT32_MOD = 4294967296 := by norm_num [UINT32_MOD]
      cases op with
      | addRef =>
          have hcnt : numAdds (RefOp.addRef :: rest) = numAdds rest + 1 := by
            simp [numAdds]
          have hcnt2 : numReleases (RefOp.addRef :: rest) = numReleases rest := by
            simp [numReleases]
          rw [hcnt] at hlt
          have hmod : (b + 1) % UINT32_MOD = b + 1 := by
            apply Nat.mod_eq_of_lt; omega
          have hstep : runRefOps ⟨b, d⟩ (RefOp.addRef :: rest)
              = runRefOps ⟨b + 1, d⟩ rest := by
            rw [runRefOps]
            simp [stepRef, addRef, hmod]
          rw [hstep] at hdest ⊢
          have := ih (b + 1) d (by omega) (by omega) hdest
          rw [hcnt, hcnt2]
          omega
      | release =>
          have hcnt : numAdds (RefOp.release :: rest) = numAdds rest := by
            simp [numAdds]
          have hcnt2 : numReleases (RefOp.release :: rest) = numReleases rest + 1 := by
            simp [numReleases]
          rw [hcnt] at hlt
          have hb2 : b ≠ 1 := by
            intro hb1
            subst hb1
            have hstep : runRefOps ⟨1, d⟩ (RefOp.release :: rest)
                = runRefOps ⟨(1 + (UINT32_MOD - 1)) % UINT32_MOD, d + 1⟩ rest := by
              rw [runRefOps]
              simp [stepRef, release]
            rw [hstep] at hdest
            have := destroyed_mono rest ⟨(1 + (UINT32_MOD - 1)) % UINT32_MOD, d + 1⟩
            simp only at this
            omega
          have hmod : (b + (UINT32_MOD - 1)) % UINT32_MOD = b - 1 := by
            rw [hM]; omega
          have hstep : runRefOps ⟨b, d⟩ (RefOp.release :: rest)
              = runRefOps ⟨b - 1, d⟩ rest := by
            rw [runRefOps]
            simp [stepRef, release, hb2, hmod]
          rw [hstep] at hdest ⊢
          have := ih (b - 1) d (by omega) (by omega) hdest
          rw [hcnt, hcnt2]
          omega

theorem runRefOps_replicate_addRef (k : Nat) :
    ∀ b d : Nat, b < UINT32_MOD →
    runRefOps ⟨b, d⟩ (List.replicate k RefOp.addRef) = ⟨(b + k) % UINT32_MOD, d⟩ := by
  induction k with
  | zero =>
      intro b d hb
      simp [runRefOps, Nat.mod_eq_of_lt hb]
  | succ n ih =>
      intro b d hb
      have hstep : runRefOps ⟨b, d⟩ (List.replicate (n + 1) RefOp.addRef)
          = runRefOps ⟨(b + 1) % UINT32_MOD, d⟩ (List.replicate n RefOp.addRef) := by
        rw [List.replicate_succ, runRefOps]
        simp [stepRef, addRef]
      rw [hstep, ih _ _ (Nat.mod_lt _ (by norm_num [UINT32_MOD]))]
      congr 1
      rw [Nat.mod_add_mod]
      congr 1
      omega

/-! ## Owning references (`ObjectPtr`, Object.h lines 189-250)

The operations act on the referenced entity's counter (`RefState`);
`Bool` records whether a handle holds the entity (`Ptr != nullptr`).
Aliasing of two handle objects (the `this == &other` self-assignment
guard) has no counterpart in this value-level model; the guarded
`this != &other` path is what is embedded. -/

/-- `ObjectPtr(T* ptr)`: `AddRef()` if the raw pointer is non-null
(Object.h line 194, 233-239). -/
def objectPtrNew (ptr : Bool) (w : RefState) : RefState × Bool :=
  (if ptr then addRef w else w, ptr)

/-- `ObjectPtr(const ObjectPtr&)`: copy the pointer and `AddRef()` if
non-null (Object.h line 195). -/
def objectPtrCopy (other : Bool) (w : RefState) : RefState × Bool :=
  (if other then addRef w else w, other)

/-- `ObjectPtr(ObjectPtr&&)`: take the pointer, null the source, no
counter operation (Object.h line 196).  Returns ((world, new handle),
source handle after the move). -/
def objectPtrMove (other : Bool) (w : RefState) : (RefState × Bool) × Bool :=
  ((w, other), false)

/-- `operator=(const ObjectPtr&)`, `this != &other` path: `Release()`
the held entity, take the pointer, `AddRef()` (Object.h lines 200-209). -/
def objectPtrCopyAssign (dst other : Bool) (w : RefState) : RefState × Bool :=
  let w1 := if dst then release w else w
  let w2 := if other then addRef w1 else w1
  (w2, other)

/-- `operator=(ObjectPtr&&)`, `this != &other` path: `Release()` the
held entity, take the pointer, null the source (Object.h lines 211-220). -/
def objectPtrMoveAssign (dst other : Bool) (w : RefState) : (RefState × Bool) × Bool :=
  let w1 := if dst then release w else w
  ((w1, other), false)

/-- `~ObjectPtr()`: `Release()` if the pointer is non-null
(Object.h lines 198, 241-247). -/
def objectPtrDtor (p : Bool) (w : RefState) : RefState :=
  if p then release w else w

theorem addRef_eq (s : RefState) (hs : s.bits + 1 < UINT32_MOD) :
    addRef s = ⟨s.bits + 1, s.destroyed⟩ := by
  unfold addRef
  simp [Nat.mod_eq_of_lt hs]

theorem release_eq (s : RefState) (h2 : 2 ≤ s.bits) (hM : s.bits < UINT32_MOD) :
    release s = ⟨s.bits - 1, s.destroyed⟩ := by
  have hne : s.bits ≠ 1 := by omega
  have hMod : UINT32_MOD = 4294967296 := by norm_num [UINT32_MOD]
  rw [hMod] at hM
  unfold release
  simp only [hne, if_neg, RefState.mk.injEq]
  refine ⟨?_, by simp [hne]⟩
  rw [hMod]
  omega

/-- C1 (counterexample): the claim "after N `AddRef()` and M `Release()`
calls with N >= M and the entity kept alive, `GetRefCount()` equals
`1 + N - M`" fails at N = 2 ^ 31, M = 0: `RefCount` is a 32-bit signed
integer, so after 2 ^ 31 `AddRef()` calls `GetRefCount()` is negative
rather than `1 + 2 ^ 31`. -/
theorem c1_refcount_counterexample :
    numAdds (List.replicate (2 ^ 31) RefOp.addRef) = 2 ^ 31 ∧
    numReleases (List.replicate (2 ^ 31) RefOp.addRef) = 0 ∧
    keptAlive (List.replicate (2 ^ 31) RefOp.addRef) ∧
    getRefCount (runRefOps initRefState (List.replicate (2 ^ 31) RefOp.addRef))
      ≠ 1 + (numAdds (List.replicate (2 ^ 31) RefOp.addRef) : Int)
          - (numReleases (List.replicate (2 ^ 31) RefOp.addRef) : Int) := by
  have hrep := runRefOps_replicate_addRef (2 ^ 31) 1 0 (by norm_num [UINT32_MOD])
  have hinit : initRefState = (⟨1, 0⟩ : RefState) := rfl
  have hA : numAdds (List.replicate (2 ^ 31) RefOp.addRef) = 2 ^ 31 := by
    unfold numAdds
    rw [List.count_replicate_self]
  have hR : numReleases (List.replicate (2 ^ 31) RefOp.addRef) = 0 := by
    unfold numReleases
    rw [List.count_replicate]
    rfl
  refine ⟨hA, hR, ?_, ?_⟩
  · unfold keptAlive
    rw [hinit, hrep]
  · rw [hinit, hrep, hA, hR]
    unfold getRefCount toInt32
    norm_num [UINT32_MOD]

/-- C1 (amended): for every interleaving of N `AddRef()` and M
`Release()` calls on a fresh entity with N >= M, the entity kept alive,
and additionally `1 + N < 2 ^ 31` (so the 32-bit signed `RefCount`
cannot overflow), `GetRefCount()` equals `1 + N - M`. -/
theorem c1_refcount_arith (ops : List RefOp)
    (hNM : numReleases ops ≤ numAdds ops)
    (halive : keptAlive ops)
    (hbound : 1 + numAdds ops < 2 ^ 31) :
    getRefCount (runRefOps initRefState ops)
      = 1 + (numAdds ops : Int) - (numReleases ops : Int) := by
  have hinit : initRefState = (⟨1, 0⟩ : RefState) := rfl
  unfold keptAlive at halive
  rw [hinit] at halive
  obtain ⟨hlt, hbits⟩ := runRefOps_alive ops 1 0 (Nat.le_refl 1) (by omega) halive
  unfold getRefCount toInt32
  rw [hinit, hbits]
  have hsm : 1 + numAdds ops - numReleases ops < 2 ^ 31 := by omega
  rw [if_pos hsm]
  omega

/-- Witness for C1 at ops = [AddRef, AddRef, Release]. -/
theorem c1_refcount_arith_witness :
    numReleases [RefOp.addRef, RefOp.addRef, RefOp.release]
        ≤ numAdds [RefOp.addRef, RefOp.addRef, RefOp.release] ∧
    keptAlive [RefOp.addRef, RefOp.addRef, RefOp.release] ∧
    1 + numAdds [RefOp.addRef, RefOp.addRef, RefOp.release] < 2 ^ 31 ∧
    getRefCount (runRefOps initRefState [RefOp.addRef, RefOp.addRef, RefOp.release])
      = 1 + (numAdds [RefOp.addRef, RefOp.addRef, RefOp.release] : Int)
          - (numReleases [RefOp.addRef, RefOp.addRef, RefOp.release] : Int) :=
  ⟨by decide, by decide, by decide,
    c1_refcount_arith [RefOp.addRef, RefOp.addRef, RefOp.release]
      (by decide) (by decide) (by decide)⟩

/-- C2: `ObjectPtr` construction from a raw non-null reference
increments the counter (skipped for null); copy construction/assignment
increments; move construction/assignment transfers without touching the
counter and nulls the source; destruction and assignment-overwrite
release the previously held entity.  Copying a handle twice and
destroying all three handles returns the counter to its value before the
first handle existed, and the release taking the count below 1 runs
`delete this` exactly once. -/
theorem c2_objectptr (w : RefState) (h1 : 1 ≤ w.bits) (h2 : w.bits + 3 < 2 ^ 31) :
    ((objectPtrNew true w).1.bits = w.bits + 1 ∧ (objectPtrNew true w).2 = true) ∧
    objectPtrNew false w = (w, false) ∧
    (objectPtrCopy true w).1.bits = w.bits + 1 ∧
    objectPtrCopy false w = (w, false) ∧
    (∀ p : Bool, objectPtrMove p w = ((w, p), false)) ∧
    (∀ p : Bool, objectPtrMoveAssign true p w = ((release w, p), false)) ∧
    (objectPtrDtor true w).bits = w.bits - 1 ∧
    objectPtrDtor false w = w ∧
    (objectPtrCopyAssign true true w).1.bits = w.bits ∧
    (objectPtrCopyAssign true false w).1.bits = w.bits - 1 ∧
    (objectPtrCopyAssign false true w).1.bits = w.bits + 1 ∧
    objectPtrDtor true (objectPtrDtor true (objectPtrDtor true
        (objectPtrCopy true (objectPtrCopy true (objectPtrNew true w).1).1).1)) = w ∧
    release (objectPtrDtor true (objectPtrDtor true (objectPtrDtor true
        (objectPtrCopy true (objectPtrCopy true (objectPtrNew true initRefState).1).1).1)))
      = ⟨0, 1⟩ := by
  have hMod : UINT32_MOD = 4294967296 := by norm_num [UINT32_MOD]
  have hb1 : w.bits + 1 < UINT32_MOD := by rw [hMod]; omega
  have hb2 : w.bits + 1 + 1 < UINT32_MOD := by rw [hMod]; omega
  have hb3 : w.bits + 2 + 1 < UINT32_MOD := by rw [hMod]; omega
  have hrw1 : addRef w = ⟨w.bits + 1, w.destroyed⟩ := addRef_eq w hb1
  have hrw2 : addRef ⟨w.bits + 1, w.destroyed⟩ = ⟨w.bits + 2, w.destroyed⟩ :=
    addRef_eq ⟨w.bits + 1, w.destroyed⟩ hb2
  have hrw3 : addRef ⟨w.bits + 2, w.destroyed⟩ = ⟨w.bits + 3, w.destroyed⟩ :=
    addRef_eq ⟨w.bits + 2, w.destroyed⟩ hb3
  have hrl3 : release ⟨w.bits + 3, w.destroyed⟩ = ⟨w.bits + 2, w.destroyed⟩ :=
    release_eq ⟨w.bits + 3, w.destroyed⟩ (by show 2 ≤ w.bits + 3; omega)
      (by show w.bits + 3 < UINT32_MOD; rw [hMod]; omega)
  have hrl2 : release ⟨w.bits + 2, w.destroyed⟩ = ⟨w.bits + 1, w.destroyed⟩ :=
    release_eq ⟨w.bits + 2, w.destroyed⟩ (by show 2 ≤ w.bits + 2; omega)
      (by show w.bits + 2 < UINT32_MOD; rw [hMod]; omega)
  have hrl1 : release ⟨w.bits + 1, w.destroyed⟩ = ⟨w.bits, w.destroyed⟩ :=
    release_eq ⟨w.bits + 1, w.destroyed⟩ (by show 2 ≤ w.bits + 1; omega)
      (by show w.bits + 1 < UINT32_MOD; rw [hMod]; omega)
  have hrelw : (release w).bits = w.bits - 1 := by
    by_cases hone : w.bits = 1
    · unfold release
      simp only [hone]
      rw [hMod]
    · rw [release_eq w (by omega) (by rw [hMod]; omega)]
  refine ⟨⟨?_, rfl⟩, rfl, ?_, rfl, fun p => rfl, fun p => rfl, ?_, rfl, ?_, ?_, ?_, ?_, ?_⟩
  · show (addRef w).bits = w.bits + 1
    rw [hrw1]
  · show (addRef w).bits = w.bits + 1
    rw [hrw1]
  · show (release w).bits = w.bits - 1
    exact hrelw
  · -- copy assignment over a held handle: release old, then addref new
    show (addRef (release w)).bits = w.bits
    have hstep : (addRef (release w)).bits = ((release w).bits + 1) % UINT32_MOD := rfl
    rw [hstep, hrelw, hMod]
    omega
  · show (release w).bits = w.bits - 1
    exact hrelw
  · show (addRef w).bits = w.bits + 1
    rw [hrw1]
  · show release (release (release (addRef (addRef (addRef w))))) = w
    rw [hrw1, hrw2, hrw3, hrl3, hrl2, hrl1]
  · decide

/-- Witness for C2 at an entity whose counter holds 5. -/
theorem c2_objectptr_witness :
    1 ≤ (⟨5, 0⟩ : RefState).bits ∧ (⟨5, 0⟩ : RefState).bits + 3 < 2 ^ 31 ∧
    (objectPtrCopy true ⟨5, 0⟩).1.bits = (⟨5, 0⟩ : RefState).bits + 1 :=
  ⟨by decide, by decide, (c2_objectptr ⟨5, 0⟩ (by decide) (by decide)).2.2.1⟩

/-! ## Hierarchical names (`Object::GetFullName` / `GetPathName`,
Object.cpp lines 81-99)

C++ strings are modelled as `List Char`.  An entity is modelled by its
name together with its (finite, acyclic) `Outer` chain: `root` is an
entity whose `OuterPrivate` is null. -/

abbrev Str := List Char

inductive OObj where
  | root (name : Str)
  | nested (name : Str) (outer : OObj)
deriving DecidableEq, Repr

/-- `Object::GetFullName()` (Object.cpp lines 81-89): the entity's own
name, prefixed by the recursively resolved full name of `Outer` (if
any) and a '.'. -/
def getFullName : OObj → Str
  | .root n => n
  | .nested n o => getFullName o ++ ['.'] ++ n

/-- `Object::GetPathName()` (Object.cpp lines 91-99): same recursion
with '/' as separator. -/
def getPathName : OObj → Str
  | .root n => n
  | .nested n o => getPathName o ++ ['/'] ++ n

/-- Number of entities on the `Outer` chain, the entity itself
included (the claim's nesting depth D). -/
def chainDepth : OObj → Nat
  | .root _ => 1
  | .nested _ o => chainDepth o + 1

/-- The names along the `Outer` chain, root first. -/
def chainNames : OObj → List Str
  | .root n => [n]
  | .nested n o => chainNames o ++ [n]

/-- Specification-side join: a root-first list of segments joined with
a separator. -/
def joinSep (sep : Str) : List Str → Str
  | [] => []
  | n :: ns =>
      match ns with
      | [] => n
      | _ :: _ => n ++ sep ++ joinSep sep ns

theorem chainNames_ne_nil (o : OObj) : chainNames o ≠ [] := by
  cases o with
  | root n => simp [chainNames]
  | nested n o => simp [chainNames]

theorem joinSep_append_last (sep : Str) (xs : List Str) (n : Str) (hxs : xs ≠ []) :
    joinSep sep (xs ++ [n]) = joinSep sep xs ++ sep ++ n := by
  induction xs with
  | nil => exact absurd rfl hxs
  | cons x rest ih =>
      cases rest with
      | nil => simp [joinSep]
      | cons y t =>
          have h1 : joinSep sep ((x :: y :: t) ++ [n])
              = x ++ sep ++ joinSep sep ((y :: t) ++ [n]) := rfl
          have h2 : joinSep sep (x :: y :: t) = x ++ sep ++ joinSep sep (y :: t) := rfl
          rw [h1, ih (by simp), h2]
          simp [List.append_assoc]

theorem getFullName_join (o : OObj) :
    getFullName o = joinSep ['.'] (chainNames o) := by
  induction o with
  | root n => simp [getFullName, chainNames, joinSep]
  | nested n o ih =>
      rw [getFullName, chainNames, joinSep_append_last _ _ _ (chainNames_ne_nil o), ih]

theorem getPathName_join (o : OObj) :
    getPathName o = joinSep ['/'] (chainNames o) := by
  induction o with
  | root n => simp [getPathName, chainNames, joinSep]
  | nested n o ih =>
      rw [getPathName, chainNames, joinSep_append_last _ _ _ (chainNames_ne_nil o), ih]

theorem chainNames_length (o : OObj) : (chainNames o).length = chainDepth o := by
  induction o with
  | root n => simp [chainNames, chainDepth]
  | nested n o ih => simp [chainNames, chainDepth, ih]

theorem getFullName_count (o : OObj)
    (hdot : ∀ n ∈ chainNames o, ('.' : Char) ∉ n) :
    (getFullName o).count '.' + 1 = chainDepth o := by
  induction o with
  | root n =>
      have : (n : Str).count '.' = 0 :=
        List.count_eq_zero.mpr (hdot n (by simp [chainNames]))
      simp [getFullName, chainDepth, this]
  | nested n o ih =>
      have hn : (n : Str).count '.' = 0 :=
        List.count_eq_zero.mpr (hdot n (by simp [chainNames]))
      have ho : ∀ m ∈ chainNames o, ('.' : Char) ∉ m := by
        intro m hm
        exact hdot m (by simp [chainNames, hm])
      have := ih ho
      rw [getFullName, chainDepth]
      simp [List.count_append, hn]
      omega

theorem getPathName_count (o : OObj)
    (hsl : ∀ n ∈ chainNames o, ('/' : Char) ∉ n) :
    (getPathName o).count '/' + 1 = chainDepth o := by
  induction o with
  | root n =>
      have : (n : Str).count '/' = 0 :=
        List.count_eq_zero.mpr (hsl n (by simp [chainNames]))
      simp [getPathName, chainDepth, this]
  | nested n o ih =>
      have hn : (n : Str).count '/' = 0 :=
        List.count_eq_zero.mpr (hsl n (by simp [chainNames]))
      have ho : ∀ m ∈ chainNames o, ('/' : Char) ∉ m := by
        intro m hm
        exact hsl m (by simp [chainNames, hm])
      have := ih ho
      rw [getPathName, chainDepth]
      simp [List.count_append, hn]
      omega

/-- C8: `GetFullName()` is the '.'-join, root first, of the names on
the entity's `Outer` chain, and `GetPathName()` the '/'-join; for a
chain of depth D (number of entities on the chain) the full name
consists of exactly D segments, and - when no name itself contains the
separator - the separator occurs exactly D - 1 times in the result. -/
theorem c8_fullname_path (o : OObj) :
    getFullName o = joinSep ['.'] (chainNames o) ∧
    getPathName o = joinSep ['/'] (chainNames o) ∧
    (chainNames o).length = chainDepth o ∧
    ((∀ n ∈ chainNames o, ('.' : Char) ∉ n) →
      (getFullName o).count '.' + 1 = chainDepth o) ∧
    ((∀ n ∈ chainNames o, ('/' : Char) ∉ n) →
      (getPathName o).count '/' + 1 = chainDepth o) :=
  ⟨getFullName_join o, getPathName_join o, chainNames_length o,
    getFullName_count o, getPathName_count o⟩

/-- Witness for C8 at the depth-3 chain Pkg.World.Actor. -/
theorem c8_fullname_path_witness :
    getFullName (OObj.nested ['A'] (OObj.nested ['W'] (OObj.root ['P'])))
        = joinSep ['.'] (chainNames (OObj.nested ['A'] (OObj.nested ['W'] (OObj.root ['P'])))) ∧
    (∀ n ∈ chainNames (OObj.nested ['A'] (OObj.nested ['W'] (OObj.root ['P']))),
        ('.' : Char) ∉ n) ∧
    (getFullName (OObj.nested ['A'] (OObj.nested ['W'] (OObj.root ['P'])))).count '.' + 1
        = chainDepth (OObj.nested ['A'] (OObj.nested ['W'] (OObj.root ['P']))) :=
  ⟨(c8_fullname_path _).1, by decide,
    (c8_fullname_path (OObj.nested ['A'] (OObj.nested ['W'] (OObj.root ['P'])))).2.2.2.1
      (by decide)⟩

/-! ## Identity Registry (`ObjectRegistry`, Object.cpp lines 119-169)

`std::unordered_map` is modelled as an association list whose keys are
unique; `operator[]` insertion overwrites the entry with the same key.
Entities carry an identity (`id`, standing for the `Object*` pointer),
their name/`Outer` chain and their `Class*` (a class id, or none for
null). -/

structure Entity where
  id : Nat
  obj : OObj
  cls : Option Nat
deriving DecidableEq, Repr

structure Registry where
  objects : List (Str × Nat)
  byClass : List (Nat × List Nat)
deriving DecidableEq, Repr

/-- `Objects[name] = object`: overwrite the entry with this key, or
append a fresh one. -/
def mapSet : List (Str × Nat) → Str → Nat → List (Str × Nat)
  | [], k, v => [(k, v)]
  | (k1, v1) :: rest, k, v =>
      if k1 = k then (k, v) :: rest else (k1, v1) :: mapSet rest k v

/-- `Objects.erase(name)`. -/
def mapErase : List (Str × Nat) → Str → List (Str × Nat)
  | [], _ => []
  | (k1, v1) :: rest, k => if k1 = k then rest else (k1, v1) :: mapErase rest k

/-- `Objects.find(name)`. -/
def mapFind : List (Str × Nat) → Str → Option Nat
  | [], _ => none
  | (k1, v1) :: rest, k => if k1 = k then some v1 else mapFind rest k

/-- `ObjectsByClass[c].push_back(oid)` (`operator[]` default-constructs
a missing entry). -/
def classAppend : List (Nat × List Nat) → Nat → Nat → List (Nat × List Nat)
  | [], c, oid => [(c, [oid])]
  | (c1, l) :: rest, c, oid =>
      if c1 = c then (c, l ++ [oid]) :: rest else (c1, l) :: classAppend rest c oid

/-- erase-remove of `oid` from `ObjectsByClass[c]` (removal by
identity; `operator[]` default-constructs a missing entry). -/
def classRemove : List (Nat × List Nat) → Nat → Nat → List (Nat × List Nat)
  | [], c, _ => [(c, [])]
  | (c1, l) :: rest, c, oid =>
      if c1 = c then (c, l.filter (fun x => x ≠ oid)) :: rest
      else (c1, l) :: classRemove rest c oid

/-- `ObjectsByClass.find(c)`. -/
def classFind : List (Nat × List Nat) → Nat → Option (List Nat)
  | [], _ => none
  | (c1, l) :: rest, c => if c1 = c then some l else classFind rest c

/-- `ObjectRegistry::FindObject` (Object.cpp lines 159-163). -/
def findObject (r : Registry) (name : Str) : Option Nat := mapFind r.objects name

/-- `ObjectRegistry::GetObjectsOfClass` (Object.cpp lines 165-169):
the recorded collection, or empty if none. -/
def getObjectsOfClass (r : Registry) (c : Nat) : List Nat :=
  (classFind r.byClass c).getD []

/-- `ObjectRegistry::RegisterObject` (Object.cpp lines 125-138). -/
def registerObject (r : Registry) (o : Option Entity) : Registry :=
  match o with
  | none => r
  | some e =>
      let name := getFullName e.obj
      let r1 : Registry := { r with objects := mapSet r.objects name e.id }
      match e.cls with
      | none => r1
      | some c => { r1 with byClass := classAppend r1.byClass c e.id }

/-- `ObjectRegistry::UnregisterObject` (Object.cpp lines 140-157). -/
def unregisterObject (r : Registry) (o : Option Entity) : Registry :=
  match o with
  | none => r
  | some e =>
      let name := getFullName e.obj
      let r1 : Registry := { r with objects := mapErase r.objects name }
      match e.cls with
      | none => r1
      | some c => { r1 with byClass := classRemove r1.byClass c e.id }

/-- Number of entries in the name map holding this key. -/
def countKey (m : List (Str × Nat)) (k : Str) : Nat :=
  m.countP (fun p => p.1 = k)

theorem mapFind_mapSet_self (m : List (Str × Nat)) (k : Str) (v : Nat) :
    mapFind (mapSet m k v) k = some v := by
  induction m with
  | nil => simp [mapSet, mapFind]
  | cons p rest ih =>
      obtain ⟨k1, v1⟩ := p
      by_cases h : k1 = k
      · simp [mapSet, h, mapFind]
      · simp [mapSet, h, mapFind, ih]

theorem countKey_eq_zero (m : List (Str × Nat)) (k : Str)
    (h : k ∉ m.map Prod.fst) : countKey m k = 0 := by
  induction m with
  | nil => simp [countKey]
  | cons p rest ih =>
      obtain ⟨k1, v1⟩ := p
      simp only [List.map_cons, List.mem_cons] at h
      push_neg at h
      unfold countKey at ih ⊢
      rw [List.countP_cons]
      simp only [decide_eq_true_eq]
      have h1 : ¬(k1 = k) := fun hh => h.1 hh.symm
      simp [h1, ih h.2]

theorem countKey_mapSet (m : List (Str × Nat)) (k : Str) (v : Nat)
    (hnod : (m.map Prod.fst).Nodup) : countKey (mapSet m k v) k = 1 := by
  induction m with
  | nil => simp [mapSet, countKey, List.countP_cons]
  | cons p rest ih =>
      obtain ⟨k1, v1⟩ := p
      simp only [List.map_cons, List.nodup_cons] at hnod
      by_cases h : k1 = k
      · subst h
        have h0 : countKey rest k1 = 0 := countKey_eq_zero rest k1 hnod.1
        unfold countKey at h0 ⊢
        simp [mapSet, List.countP_cons, h0]
      · unfold countKey at ih ⊢
        simp [mapSet, h, List.countP_cons, ih hnod.2]

theorem mem_keys_mapSet (m : List (Str × Nat)) (k x : Str) (v : Nat)
    (hx : x ∈ (mapSet m k v).map Prod.fst) : x = k ∨ x ∈ m.map Prod.fst := by
  induction m with
  | nil =>
      rw [mapSet] at hx
      simp only [List.map_cons, List.map_nil, List.mem_singleton] at hx
      exact Or.inl hx
  | cons p rest ih =>
      obtain ⟨k1, v1⟩ := p
      by_cases h : k1 = k
      · rw [mapSet, if_pos h] at hx
        simp only [List.map_cons, List.mem_cons] at hx
        rcases hx with h1 | h1
        · exact Or.inl h1
        · right
          simp only [List.map_cons, List.mem_cons]
          exact Or.inr h1
      · rw [mapSet, if_neg h] at hx
        simp only [List.map_cons, List.mem_cons] at hx
        rcases hx with h1 | h1
        · right
          simp only [List.map_cons, List.mem_cons]
          exact Or.inl h1
        · rcases ih h1 with h2 | h2
          · exact Or.inl h2
          · right
            simp only [List.map_cons, List.mem_cons]
            exact Or.inr h2

theorem nodup_keys_mapSet (m : List (Str × Nat)) (k : Str) (v : Nat)
    (hnod : (m.map Prod.fst).Nodup) : ((mapSet m k v).map Prod.fst).Nodup := by
  induction m with
  | nil => simp [mapSet]
  | cons p rest ih =>
      obtain ⟨k1, v1⟩ := p
      simp only [List.map_cons, List.nodup_cons] at hnod
      by_cases h : k1 = k
      · rw [mapSet, if_pos h]
        simp only [List.map_cons, List.nodup_cons]
        refine ⟨?_, hnod.2⟩
        rw [← h]
        exact hnod.1
      · rw [mapSet, if_neg h]
        simp only [List.map_cons, List.nodup_cons]
        refine ⟨?_, ih hnod.2⟩
        intro hmem
        rcases mem_keys_mapSet rest k k1 v hmem with h1 | h1
        · exact h h1
        · exact hnod.1 h1

theorem classFind_classAppend_self (m : List (Nat × List Nat)) (c oid : Nat) :
    classFind (classAppend m c oid) c = some ((classFind m c).getD [] ++ [oid]) := by
  induction m with
  | nil => simp [classAppend, classFind]
  | cons p rest ih =>
      obtain ⟨c1, l⟩ := p
      by_cases h : c1 = c
      · simp [classAppend, h, classFind]
      · simp [classAppend, h, classFind, ih]

theorem classFind_classAppend_other (m : List (Nat × List Nat)) (c c2 oid : Nat)
    (hne : c2 ≠ c) : classFind (classAppend m c oid) c2 = classFind m c2 := by
  have hne2 : ¬(c = c2) := fun hh => hne hh.symm
  induction m with
  | nil => simp [classAppend, classFind, hne2]
  | cons p rest ih =>
      obtain ⟨c1, l⟩ := p
      by_cases h : c1 = c
      · rw [classAppend, if_pos h]
        have h1 : ¬(c1 = c2) := fun hh => hne2 (h ▸ hh)
        simp only [classFind, if_neg hne2, if_neg h1]
      · rw [classAppend, if_neg h]
        by_cases h2 : c1 = c2
        · simp only [classFind, if_pos h2]
        · simp only [classFind, if_neg h2]
          exact ih

theorem mem_getObjects_classAppend (m : List (Nat × List Nat)) (c c2 x oid : Nat)
    (hx : x ∈ (classFind m c2).getD []) :
    x ∈ (classFind (classAppend m c oid) c2).getD [] := by
  by_cases h : c2 = c
  · subst h
    rw [classFind_classAppend_self]
    simp only [Option.getD_some, List.mem_append]
    exact Or.inl hx
  · rw [classFind_classAppend_other m c c2 oid h]
    exact hx

/-- C9: registering two entities with the same resolved full name (in
a registry whose name-map keys are unique, as for `std::unordered_map`)
leaves exactly one entry for that name in the name map, mapping to the
second entity; no error is signalled (`RegisterObject` returns
normally, here: totally); and both entities appear in their respective
classes' collections. -/
theorem c9_register_overwrite (e1 e2 : Entity) (c1 c2 : Nat) (r : Registry)
    (hname : getFullName e1.obj = getFullName e2.obj)
    (hc1 : e1.cls = some c1) (hc2 : e2.cls = some c2)
    (hnod : (r.objects.map Prod.fst).Nodup) :
    countKey (registerObject (registerObject r (some e1)) (some e2)).objects
        (getFullName e2.obj) = 1 ∧
    findObject (registerObject (registerObject r (some e1)) (some e2))
        (getFullName e2.obj) = some e2.id ∧
    e1.id ∈ getObjectsOfClass (registerObject (registerObject r (some e1)) (some e2)) c1 ∧
    e2.id ∈ getObjectsOfClass (registerObject (registerObject r (some e1)) (some e2)) c2 := by
  have hobjs : (registerObject (registerObject r (some e1)) (some e2)).objects
      = mapSet (mapSet r.objects (getFullName e1.obj) e1.id) (getFullName e2.obj) e2.id := by
    simp [registerObject, hc1, hc2]
  have hby : (registerObject (registerObject r (some e1)) (some e2)).byClass
      = classAppend (classAppend r.byClass c1 e1.id) c2 e2.id := by
    simp [registerObject, hc1, hc2]
  refine ⟨?_, ?_, ?_, ?_⟩
  · rw [hobjs]
    exact countKey_mapSet _ _ _ (nodup_keys_mapSet _ _ _ hnod)
  · unfold findObject
    rw [hobjs]
    exact mapFind_mapSet_self _ _ _
  · unfold getObjectsOfClass
    rw [hby]
    apply mem_getObjects_classAppend
    rw [classFind_classAppend_self]
    simp
  · unfold getObjectsOfClass
    rw [hby, classFind_classAppend_self]
    simp

/-- Witness for C9: two root entities both named "A", classes 10 and 20,
empty registry. -/
theorem c9_register_overwrite_witness :
    countKey (registerObject (registerObject ⟨[], []⟩
          (some ⟨1, OObj.root ['A'], some 10⟩)) (some ⟨2, OObj.root ['A'], some 20⟩)).objects
        (getFullName (OObj.root ['A'])) = 1 ∧
    findObject (registerObject (registerObject ⟨[], []⟩
          (some ⟨1, OObj.root ['A'], some 10⟩)) (some ⟨2, OObj.root ['A'], some 20⟩))
        (getFullName (OObj.root ['A'])) = some 2 ∧
    1 ∈ getObjectsOfClass (registerObject (registerObject ⟨[], []⟩
          (some ⟨1, OObj.root ['A'], some 10⟩)) (some ⟨2, OObj.root ['A'], some 20⟩)) 10 ∧
    2 ∈ getObjectsOfClass (registerObject (registerObject ⟨[], []⟩
          (some ⟨1, OObj.root ['A'], some 10⟩)) (some ⟨2, OObj.root ['A'], some 20⟩)) 20 :=
  c9_register_overwrite ⟨1, OObj.root ['A'], some 10⟩ ⟨2, OObj.root ['A'], some 20⟩
    10 20 ⟨[], []⟩ rfl rfl rfl (by simp)

/-! ## Lifecycle: destruction and creation
(`Object::DestroyObject` Object.cpp lines 70-79,
`Object::CreateObject` lines 56-68, `Class::CreateObject` lines 111-116)

A full entity couples its registry identity with the flag bits and the
reference counter.  `ObjectFlags` values are the power-of-two constants
of Object.h lines 21-39. -/

def OF_BeginDestroyed : Nat := 64

def OF_FinishDestroyed : Nat := 128

/-- `ObjectBase::AddFlags` (Object.h line 84). -/
def addFlags (flags fl : Nat) : Nat := flags ||| fl

/-- `ObjectBase::HasFlags` (Object.h line 86). -/
def hasFlags (flags fl : Nat) : Bool := (flags &&& fl) != 0

structure ObjFull where
  ent : Entity
  flags : Nat
  ref : RefState
deriving DecidableEq, Repr

inductive DestroyEv where
  | beginD
  | unreg
  | finishD
  | releaseRef
deriving DecidableEq, Repr

/-- `Object::DestroyObject` (Object.cpp lines 70-79): null is a no-op;
otherwise `BeginDestroy()` (sets `BeginDestroyed`), then
`ObjectRegistry::Get().UnregisterObject(object)`, then `FinishDestroy()`
(sets `FinishDestroyed`), then `Release()`.  The third component records
the order in which the four steps ran. -/
def destroyObject (o : Option ObjFull) (reg : Registry) :
    Option ObjFull × Registry × List DestroyEv :=
  match o with
  | none => (none, reg, [])
  | some obj =>
      let o1 : ObjFull := { obj with flags := addFlags obj.flags OF_BeginDestroyed }
      let reg1 := unregisterObject reg (some o1.ent)
      let o2 : ObjFull := { o1 with flags := addFlags o1.flags OF_FinishDestroyed }
      (some { o2 with ref := release o2.ref }, reg1,
        [.beginD, .unreg, .finishD, .releaseRef])

theorem mapFind_eq_none_of_not_mem (m : List (Str × Nat)) (k : Str)
    (h : k ∉ m.map Prod.fst) : mapFind m k = none := by
  induction m with
  | nil => rfl
  | cons p rest ih =>
      obtain ⟨k1, v1⟩ := p
      simp only [List.map_cons, List.mem_cons] at h
      push_neg at h
      have h1 : ¬(k1 = k) := fun hh => h.1 hh.symm
      rw [mapFind, if_neg h1]
      exact ih h.2

theorem mapFind_mapErase_self (m : List (Str × Nat)) (k : Str)
    (hnod : (m.map Prod.fst).Nodup) : mapFind (mapErase m k) k = none := by
  induction m with
  | nil => rfl
  | cons p rest ih =>
      obtain ⟨k1, v1⟩ := p
      simp only [List.map_cons, List.nodup_cons] at hnod
      by_cases h : k1 = k
      · rw [mapErase, if_pos h]
        apply mapFind_eq_none_of_not_mem
        rw [← h]
        exact hnod.1
      · rw [mapErase, if_neg h]
        rw [mapFind, if_neg h]
        exact ih hnod.2

theorem hasFlags_both_begin (f : Nat) :
    hasFlags (addFlags (addFlags f OF_BeginDestroyed) OF_FinishDestroyed)
      OF_BeginDestroyed = true := by
  unfold hasFlags addFlags OF_BeginDestroyed OF_FinishDestroyed
  have h64 : (64 : Nat) = 2 ^ 6 := by norm_num
  have hb : Nat.testBit 64 6 = true := by decide
  simp only [bne_iff_ne, ne_eq]
  rw [h64, Nat.and_two_pow]
  simp [Nat.testBit_or, hb]

theorem hasFlags_both_finish (f : Nat) :
    hasFlags (addFlags (addFlags f OF_BeginDestroyed) OF_FinishDestroyed)
      OF_FinishDestroyed = true := by
  unfold hasFlags addFlags OF_BeginDestroyed OF_FinishDestroyed
  have h128 : (128 : Nat) = 2 ^ 7 := by norm_num
  have hb : Nat.testBit 128 7 = true := by decide
  simp only [bne_iff_ne, ne_eq]
  rw [h128, Nat.and_two_pow]
  simp [Nat.testBit_or, hb]

/-- C3 (counterexample): the claim orders the teardown as BeginDestroy,
FinishDestroy, unregistration, Release; the code unregisters between
the two destroy phases.  At a concrete entity the recorded step order
is [BeginDestroy, Unregister, FinishDestroy, Release], not the claimed
[BeginDestroy, FinishDestroy, Unregister, Release]. -/
theorem c3_destroy_counterexample :
    (destroyObject (some ⟨⟨0, OObj.root ['A'], none⟩, 0, ⟨2, 0⟩⟩) ⟨[], []⟩).2.2
      = [DestroyEv.beginD, DestroyEv.unreg, DestroyEv.finishD, DestroyEv.releaseRef] ∧
    (destroyObject (some ⟨⟨0, OObj.root ['A'], none⟩, 0, ⟨2, 0⟩⟩) ⟨[], []⟩).2.2
      ≠ [DestroyEv.beginD, DestroyEv.finishD, DestroyEv.unreg, DestroyEv.releaseRef] := by
  exact ⟨rfl, by decide⟩

/-- C3 (amended): `DestroyObject` on an absent entity is a no-op; on a
live entity it marks `BeginDestroyed`, then unregisters from the
Identity Registry, then marks `FinishDestroyed`, then performs the
final `Release` of the creator's implicit reference; after the call the
entity's full name no longer resolves in a registry with unique keys. -/
theorem c3_destroyObject (obj : ObjFull) (reg : Registry)
    (hnod : (reg.objects.map Prod.fst).Nodup) :
    destroyObject none reg = (none, reg, []) ∧
    (destroyObject (some obj) reg).2.2
      = [DestroyEv.beginD, DestroyEv.unreg, DestroyEv.finishD, DestroyEv.releaseRef] ∧
    (destroyObject (some obj) reg).2.1 = unregisterObject reg (some obj.ent) ∧
    (∃ res : ObjFull, (destroyObject (some obj) reg).1 = some res ∧
      hasFlags res.flags OF_BeginDestroyed = true ∧
      hasFlags res.flags OF_FinishDestroyed = true ∧
      res.ref = release obj.ref) ∧
    findObject (destroyObject (some obj) reg).2.1 (getFullName obj.ent.obj) = none := by
  refine ⟨rfl, rfl, rfl, ?_, ?_⟩
  · refine ⟨_, rfl, hasFlags_both_begin obj.flags, hasFlags_both_finish obj.flags, rfl⟩
  · show findObject (unregisterObject reg (some obj.ent)) (getFullName obj.ent.obj) = none
    unfold unregisterObject findObject
    cases hc : obj.ent.cls with
    | none =>
        simp only [hc]
        exact mapFind_mapErase_self _ _ hnod
    | some c =>
        simp only [hc]
        exact mapFind_mapErase_self _ _ hnod

/-- Witness for C3 (amended) at a concrete registered entity. -/
theorem c3_destroyObject_witness :
    ((⟨[(['A'], 7)], [(3, [7])]⟩ : Registry).objects.map Prod.fst).Nodup ∧
    findObject (destroyObject
        (some ⟨⟨7, OObj.root ['A'], some 3⟩, 0, ⟨1, 0⟩⟩) ⟨[(['A'], 7)], [(3, [7])]⟩).2.1
      (getFullName (OObj.root ['A'])) = none :=
  ⟨by decide,
    (c3_destroyObject ⟨⟨7, OObj.root ['A'], some 3⟩, 0, ⟨1, 0⟩⟩
      ⟨[(['A'], 7)], [(3, [7])]⟩ (by decide)).2.2.2.2⟩

/-- `Class` (Object.h lines 145-164, Object.cpp lines 102-116): a name,
an optional super class, and the virtual factory.  The base
implementation of `Class::CreateObject` returns null; a derived
override is modelled by the `factory` field holding its result for the
given outer/name arguments. -/
structure ClassM where
  name : Str
  superClass : Option Nat
  factory : Option ObjFull

/-- `Class::CreateObject` base behaviour (Object.cpp lines 111-116)
models a `Class` constructed by `Class::Class` with no override. -/
def baseClassM (name : Str) (sup : Option Nat) : ClassM := ⟨name, sup, none⟩

inductive CreateEv where
  | registered (id : Nat)
  | postInitProps (id : Nat)
deriving DecidableEq, Repr

/-- `Object::CreateObject` (Object.cpp lines 56-68): null class gives
null; otherwise call the class factory; if it produced an entity,
register it in the Identity Registry and then call
`PostInitProperties()` (a default no-op hook, recorded as an event),
and return it. -/
def createObject (objectClass : Option ClassM) (reg : Registry) :
    Option ObjFull × Registry × List CreateEv :=
  match objectClass with
  | none => (none, reg, [])
  | some cls =>
      match cls.factory with
      | none => (none, reg, [])
      | some newObject =>
          (some newObject, registerObject reg (some newObject.ent),
            [.registered newObject.ent.id, .postInitProps newObject.ent.id])

/-- C4: `Object::CreateObject` with an absent Class returns an absent
result, leaves the registry unchanged, performs no step and signals
nothing else; the base `Class::CreateObject` factory also produces
nothing; when the factory does produce an entity, that entity is
registered (its full name then resolves to it) and then - in this
order - given `PostInitProperties`, and returned. -/
theorem c4_createObject (cls : ClassM) (reg : Registry) (o : ObjFull) :
    createObject none reg = (none, reg, []) ∧
    (cls.factory = none → createObject (some cls) reg = (none, reg, [])) ∧
    (∀ (name : Str) (sup : Option Nat),
      createObject (some (baseClassM name sup)) reg = (none, reg, [])) ∧
    (cls.factory = some o →
      createObject (some cls) reg
        = (some o, registerObject reg (some o.ent),
            [CreateEv.registered o.ent.id, CreateEv.postInitProps o.ent.id]) ∧
      findObject (createObject (some cls) reg).2.1 (getFullName o.ent.obj)
        = some o.ent.id) := by
  refine ⟨rfl, ?_, fun name sup => rfl, ?_⟩
  · intro h
    simp [createObject, h]
  · intro h
    refine ⟨by simp [createObject, h], ?_⟩
    simp only [createObject, h]
    show findObject (registerObject reg (some o.ent)) (getFullName o.ent.obj) = some o.ent.id
    unfold registerObject findObject
    cases hc : o.ent.cls with
    | none =>
        simp only [hc]
        exact mapFind_mapSet_self _ _ _
    | some c =>
        simp only [hc]
        exact mapFind_mapSet_self _ _ _

/-- Witness for C4 at a concrete class whose factory produces entity 9. -/
theorem c4_createObject_witness :
    ((⟨['C'], none, some ⟨⟨9, OObj.root ['B'], some 3⟩, 0, ⟨1, 0⟩⟩⟩ : ClassM).factory
        = some ⟨⟨9, OObj.root ['B'], some 3⟩, 0, ⟨1, 0⟩⟩) ∧
    findObject (createObject
        (some ⟨['C'], none, some ⟨⟨9, OObj.root ['B'], some 3⟩, 0, ⟨1, 0⟩⟩⟩) ⟨[], []⟩).2.1
      (getFullName (OObj.root ['B'])) = some 9 :=
  ⟨rfl,
    ((c4_createObject ⟨['C'], none, some ⟨⟨9, OObj.root ['B'], some 3⟩, 0, ⟨1, 0⟩⟩⟩
      ⟨[], []⟩ ⟨⟨9, OObj.root ['B'], some 3⟩, 0, ⟨1, 0⟩⟩).2.2.2 rfl).2⟩

/-! ## Archive (`Archive.h`)

`ArchiveFlags` constants (Archive.h lines 16-25); the `Archive` base
construction and flag queries (Archive.h lines 41-50) are in src/.  The
`MemoryArchive` state is its flags, its growable byte buffer `Data` and
its cursor `Position` (Archive.h lines 124-127); the bodies of its
primitive `operator<<` overloads and constructors are declared in
Archive.h but not present under src/, and are modelled from the spec
where noted. -/

def AF_Loading : Nat := 1

def AF_Saving : Nat := 2

def AF_Binary : Nat := 4

def AF_Text : Nat := 8

def AF_Persistent : Nat := 16

def AF_Volatile : Nat := 32

structure MemArchive where
  flags : Nat
  data : List Nat
  pos : Nat
deriving DecidableEq, Repr

/-- `Archive::Archive(flags)` (Archive.h lines 41-42): stores the flag
bits (buffer empty, cursor 0 for a fresh memory archive). -/
def mkArchive (flags : Nat) : MemArchive := ⟨flags, [], 0⟩

/-- `Archive::IsLoading()` (Archive.h line 46). -/
def isLoading (a : MemArchive) : Bool := (a.flags &&& AF_Loading) != 0

/-- `Archive::IsSaving()` (Archive.h line 47). -/
def isSaving (a : MemArchive) : Bool := (a.flags &&& AF_Saving) != 0

theorem and_one_or_two (f : Nat) : (f ||| 2) &&& 1 = f &&& 1 := by
  have h1 : (1 : Nat) = 2 ^ 0 := rfl
  rw [h1, Nat.and_two_pow, Nat.and_two_pow]
  have : (f ||| 2).testBit 0 = f.testBit 0 := by
    rw [Nat.testBit_or]
    simp [show Nat.testBit 2 0 = false from by decide]
  rw [this]

theorem and_two_or_one (f : Nat) : (f ||| 1) &&& 2 = f &&& 2 := by
  have h2 : (2 : Nat) = 2 ^ 1 := rfl
  rw [h2, Nat.and_two_pow, Nat.and_two_pow]
  have : (f ||| 1).testBit 1 = f.testBit 1 := by
    rw [Nat.testBit_or]
    simp [show Nat.testBit 1 1 = false from by decide]
  rw [this]

/-- C10: `IsLoading()` and `IsSaving()` are computed independently from
the `Loading` and `Saving` bits of the flags the archive was
constructed with: both flags set gives both queries true (mutual
exclusivity is not enforced at construction), no flags gives both
false, and or-ing in the other direction's bit never changes either
query. -/
theorem c10_direction_flags (f : Nat) :
    (isLoading (mkArchive (AF_Loading ||| AF_Saving)) = true ∧
     isSaving (mkArchive (AF_Loading ||| AF_Saving)) = true) ∧
    (isLoading (mkArchive 0) = false ∧ isSaving (mkArchive 0) = false) ∧
    isLoading (mkArchive (f ||| AF_Saving)) = isLoading (mkArchive f) ∧
    isSaving (mkArchive (f ||| AF_Loading)) = isSaving (mkArchive f) := by
  refine ⟨⟨rfl, rfl⟩, ⟨rfl, rfl⟩, ?_, ?_⟩
  · show ((f ||| AF_Saving) &&& AF_Loading != 0) = (f &&& AF_Loading != 0)
    rw [show AF_Saving = 2 from rfl, show AF_Loading = 1 from rfl, and_one_or_two]
  · show ((f ||| AF_Loading) &&& AF_Saving != 0) = (f &&& AF_Saving != 0)
    rw [show AF_Saving = 2 from rfl, show AF_Loading = 1 from rfl, and_two_or_one]

/-- Witness for C10 at flags = Binary (4). -/
theorem c10_direction_flags_witness :
    isLoading (mkArchive (4 ||| AF_Saving)) = isLoading (mkArchive 4) :=
  (c10_direction_flags 4).2.2.1

/-! ### Memory backend byte operations

Modelled from the spec: the bodies of `MemoryArchive`'s constructors
and `operator<<` overloads are declared (Archive.h lines 101-119) but
their translation unit is not under src/.  Per spec section 4.5,
saving appends/overwrites bytes at the cursor and advances it, growing
the buffer as needed; loading reads bytes at the cursor and advances
it; reading past the end fails cleanly; the wire format uses
fixed-width little-endian integers and, for arrays and strings, a
32-bit length followed by the payload (spec section 6). -/

/-- Modelled from the spec: write one byte at the cursor
(overwrite in place, or grow the buffer) and advance. -/
def writeByte (a : MemArchive) (b : Nat) : MemArchive :=
  if a.pos < a.data.length then
    { a with data := a.data.set a.pos b, pos := a.pos + 1 }
  else
    { a with data := a.data ++ [b], pos := a.pos + 1 }

def writeBytes (a : MemArchive) : List Nat → MemArchive
  | [] => a
  | b :: bs => writeBytes (writeByte a b) bs

/-- Modelled from the spec: read `n` bytes at the cursor and advance;
reading past the end of the buffer fails cleanly. -/
def readBytes (a : MemArchive) (n : Nat) : Option (List Nat × MemArchive) :=
  if a.pos + n ≤ a.data.length then
    some ((a.data.drop a.pos).take n, { a with pos := a.pos + n })
  else none

/-- Modelled from the spec: `MemoryArchive(bool loading)`
(Archive.h line 101) - fresh buffer, cursor 0, direction flag. -/
def memArchiveNew (loading : Bool) : MemArchive :=
  ⟨if loading then AF_Loading else AF_Saving, [], 0⟩

/-- Modelled from the spec: `MemoryArchive(data, bool loading)`
(Archive.h line 102) - given bytes, cursor 0, direction flag. -/
def memArchiveOver (data : List Nat) (loading : Bool) : MemArchive :=
  ⟨if loading then AF_Loading else AF_Saving, data, 0⟩

/-- Little-endian base-256 encoding of `v` on `w` bytes. -/
def encNat : Nat → Nat → List Nat
  | 0, _ => []
  | w + 1, v => v % 256 :: encNat w (v / 256)

/-- Little-endian base-256 decoding. -/
def decNat : List Nat → Nat
  | [] => 0
  | b :: bs => b + 256 * decNat bs

/-- Two's-complement encoding of a signed `w`-byte integer. -/
def encInt (w : Nat) (v : Int) : List Nat :=
  encNat w (v % ((2 : Int) ^ (8 * w))).toNat

/-- Reinterpret `w` bytes worth of bits as a signed integer. -/
def decIntOfBits (w : Nat) (n : Nat) : Int :=
  if n < 2 ^ (8 * w - 1) then (n : Int) else (n : Int) - 2 ^ (8 * w)

/-- Modelled from the spec: the unsigned-integer `operator<<` of
`MemoryArchive` at byte width `w` - read-and-overwrite when Loading,
write-the-value when Saving, inert otherwise. -/
def serUInt (w : Nat) (a : MemArchive) (v : Nat) : Option (MemArchive × Nat) :=
  if isLoading a then
    match readBytes a w with
    | none => none
    | some (bs, a1) => some (a1, decNat bs)
  else if isSaving a then
    some (writeBytes a (encNat w v), v)
  else
    some (a, v)

/-- Modelled from the spec: the signed-integer `operator<<` of
`MemoryArchive` at byte width `w`. -/
def serInt (w : Nat) (a : MemArchive) (v : Int) : Option (MemArchive × Int) :=
  if isLoading a then
    match readBytes a w with
    | none => none
    | some (bs, a1) => some (a1, decIntOfBits w (decNat bs))
  else if isSaving a then
    some (writeBytes a (encInt w v), v)
  else
    some (a, v)

/-- Modelled from the spec: `operator<<(bool&)` - one byte, nonzero
means true. -/
def serBool (a : MemArchive) (v : Bool) : Option (MemArchive × Bool) :=
  if isLoading a then
    match readBytes a 1 with
    | none => none
    | some (bs, a1) => some (a1, decide (decNat bs ≠ 0))
  else if isSaving a then
    some (writeBytes a [if v then 1 else 0], v)
  else
    some (a, v)

/-- Modelled from the spec: `operator<<(std::string&)` - a 32-bit
length followed by the string's bytes. -/
def serStr (a : MemArchive) (s : List Nat) : Option (MemArchive × List Nat) :=
  if isLoading a then
    match readBytes a 4 with
    | none => none
    | some (lb, a1) =>
        match readBytes a1 (decNat lb) with
        | none => none
        | some (sb, a2) => some (a2, sb)
  else if isSaving a then
    some (writeBytes (writeBytes a (encNat 4 s.length)) s, s)
  else
    some (a, s)

/-! ### Primitive values

`float`/`double` are carried as their IEEE-754 bit patterns (a binary
archive copies the 4/8 bytes of the object representation, so value
round-trip is exactly bit-pattern round-trip). -/

inductive PrimValue where
  | pBool (b : Bool)
  | pI8 (v : Int)
  | pU8 (v : Nat)
  | pI16 (v : Int)
  | pU16 (v : Nat)
  | pI32 (v : Int)
  | pU32 (v : Nat)
  | pI64 (v : Int)
  | pU64 (v : Nat)
  | pF32 (bits : Nat)
  | pF64 (bits : Nat)
  | pStr (bytes : List Nat)
deriving DecidableEq, Repr

inductive PrimType where
  | tBool
  | tI8
  | tU8
  | tI16
  | tU16
  | tI32
  | tU32
  | tI64
  | tU64
  | tF32
  | tF64
  | tStr
deriving DecidableEq, Repr

def primType : PrimValue → PrimType
  | .pBool _ => .tBool
  | .pI8 _ => .tI8
  | .pU8 _ => .tU8
  | .pI16 _ => .tI16
  | .pU16 _ => .tU16
  | .pI32 _ => .tI32
  | .pU32 _ => .tU32
  | .pI64 _ => .tI64
  | .pU64 _ => .tU64
  | .pF32 _ => .tF32
  | .pF64 _ => .tF64
  | .pStr _ => .tStr

/-- The value a freshly default-initialized C++ variable of each type
holds before it is loaded into. -/
def defaultPrim : PrimType → PrimValue
  | .tBool => .pBool false
  | .tI8 => .pI8 0
  | .tU8 => .pU8 0
  | .tI16 => .pI16 0
  | .tU16 => .pU16 0
  | .tI32 => .pI32 0
  | .tU32 => .pU32 0
  | .tI64 => .pI64 0
  | .tU64 => .pU64 0
  | .tF32 => .pF32 0
  | .tF64 => .pF64 0
  | .tStr => .pStr []

/-- Range invariants of the corresponding C++ types. -/
def PrimWF : PrimValue → Prop
  | .pBool _ => True
  | .pI8 v => -(2 ^ 7) ≤ v ∧ v < 2 ^ 7
  | .pU8 v => v < 2 ^ 8
  | .pI16 v => -(2 ^ 15) ≤ v ∧ v < 2 ^ 15
  | .pU16 v => v < 2 ^ 16
  | .pI32 v => -(2 ^ 31) ≤ v ∧ v < 2 ^ 31
  | .pU32 v => v < 2 ^ 32
  | .pI64 v => -(2 ^ 63) ≤ v ∧ v < 2 ^ 63
  | .pU64 v => v < 2 ^ 64
  | .pF32 b => b < 2 ^ 32
  | .pF64 b => b < 2 ^ 64
  | .pStr s => s.length < 2 ^ 32 ∧ ∀ b ∈ s, b < 256

instance (v : PrimValue) : Decidable (PrimWF v) := by
  cases v <;> simp only [PrimWF] <;> infer_instance

/-- `archive << v`, dispatched by the value's C++ type. -/
def serPrim (a : MemArchive) (v : PrimValue) : Option (MemArchive × PrimValue) :=
  match v with
  | .pBool b => (serBool a b).map (fun p => (p.1, .pBool p.2))
  | .pI8 x => (serInt 1 a x).map (fun p => (p.1, .pI8 p.2))
  | .pU8 x => (serUInt 1 a x).map (fun p => (p.1, .pU8 p.2))
  | .pI16 x => (serInt 2 a x).map (fun p => (p.1, .pI16 p.2))
  | .pU16 x => (serUInt 2 a x).map (fun p => (p.1, .pU16 p.2))
  | .pI32 x => (serInt 4 a x).map (fun p => (p.1, .pI32 p.2))
  | .pU32 x => (serUInt 4 a x).map (fun p => (p.1, .pU32 p.2))
  | .pI64 x => (serInt 8 a x).map (fun p => (p.1, .pI64 p.2))
  | .pU64 x => (serUInt 8 a x).map (fun p => (p.1, .pU64 p.2))
  | .pF32 b => (serUInt 4 a b).map (fun p => (p.1, .pF32 p.2))
  | .pF64 b => (serUInt 8 a b).map (fun p => (p.1, .pF64 p.2))
  | .pStr s => (serStr a s).map (fun p => (p.1, .pStr p.2))

/-- Serialize a sequence of values in order through one archive. -/
def serPrims (a : MemArchive) : List PrimValue → Option (MemArchive × List PrimValue)
  | [] => some (a, [])
  | v :: vs =>
      match serPrim a v with
      | none => none
      | some (a1, v1) =>
          match serPrims a1 vs with
          | none => none
          | some (a2, vs1) => some (a2, v1 :: vs1)

/-- The bytes one value occupies on the wire. -/
def encodePrim : PrimValue → List Nat
  | .pBool b => [if b then 1 else 0]
  | .pI8 v => encInt 1 v
  | .pU8 v => encNat 1 v
  | .pI16 v => encInt 2 v
  | .pU16 v => encNat 2 v
  | .pI32 v => encInt 4 v
  | .pU32 v => encNat 4 v
  | .pI64 v => encInt 8 v
  | .pU64 v => encNat 8 v
  | .pF32 b => encNat 4 b
  | .pF64 b => encNat 8 b
  | .pStr s => encNat 4 s.length ++ s

def encodePrims : List PrimValue → List Nat
  | [] => []
  | v :: vs => encodePrim v ++ encodePrims vs

theorem isLoading_load (d : List Nat) (p : Nat) :
    isLoading ⟨AF_Loading, d, p⟩ = true := by
  simp [isLoading, AF_Loading]

theorem isLoading_save (d : List Nat) (p : Nat) :
    isLoading ⟨AF_Saving, d, p⟩ = false := by
  simp [isLoading, AF_Loading, AF_Saving]

theorem isSaving_save (d : List Nat) (p : Nat) :
    isSaving ⟨AF_Saving, d, p⟩ = true := by
  simp [isSaving, AF_Saving]

theorem writeBytes_append (bs : List Nat) :
    ∀ (fl : Nat) (d : List Nat),
    writeBytes ⟨fl, d, d.length⟩ bs = ⟨fl, d ++ bs, d.length + bs.length⟩ := by
  induction bs with
  | nil =>
      intro fl d
      simp [writeBytes]
  | cons b rest ih =>
      intro fl d
      rw [writeBytes]
      have hw : writeByte ⟨fl, d, d.length⟩ b = ⟨fl, d ++ [b], d.length + 1⟩ := by
        unfold writeByte
        simp
      rw [hw]
      have hlen : d.length + 1 = (d ++ [b]).length := by simp
      rw [hlen, ih fl (d ++ [b])]
      have hdata : (d ++ [b]) ++ rest = d ++ b :: rest := by simp
      have hlen2 : (d ++ [b]).length + rest.length = d.length + (b :: rest).length := by
        simp only [List.length_append, List.length_cons, List.length_nil]
        omega
      rw [hdata, hlen2]

theorem readBytes_exact (fl : Nat) (pre mid rest : List Nat) :
    readBytes ⟨fl, pre ++ (mid ++ rest), pre.length⟩ mid.length
      = some (mid, ⟨fl, pre ++ (mid ++ rest), pre.length + mid.length⟩) := by
  unfold readBytes
  have hle : pre.length + mid.length ≤ (pre ++ (mid ++ rest)).length := by
    simp [List.length_append]
  rw [if_pos hle]
  have hdrop : (pre ++ (mid ++ rest)).drop pre.length = mid ++ rest := by
    rw [List.drop_left]
  rw [hdrop]
  have htake : (mid ++ rest).take mid.length = mid := by
    rw [List.take_left]
  rw [htake]

theorem encNat_length (w : Nat) : ∀ v : Nat, (encNat w v).length = w := by
  induction w with
  | zero => intro v; rfl
  | succ n ih => intro v; simp [encNat, ih]

theorem decNat_encNat (w : Nat) :
    ∀ v : Nat, v < 256 ^ w → decNat (encNat w v) = v := by
  induction w with
  | zero =>
      intro v hv
      simp only [pow_zero, Nat.lt_one_iff] at hv
      simp [encNat, decNat, hv]
  | succ n ih =>
      intro v hv
      rw [encNat, decNat]
      have hdiv : v / 256 < 256 ^ n := by
        rw [Nat.div_lt_iff_lt_mul (by norm_num)]
        calc v < 256 ^ (n + 1) := hv
          _ = 256 ^ n * 256 := by rw [pow_succ]
      rw [ih _ hdiv]
      omega

theorem encInt_length (w : Nat) (v : Int) : (encInt w v).length = w := by
  rw [encInt, encNat_length]

theorem pow256_eq (w : Nat) : (256 : Nat) ^ w = 2 ^ (8 * w) := by
  rw [show (256 : Nat) = 2 ^ 8 by norm_num, ← pow_mul]

theorem decIntOfBits_encInt (w : Nat) (hw : 1 ≤ w) (v : Int)
    (h1 : -(2 ^ (8 * w - 1)) ≤ v) (h2 : v < 2 ^ (8 * w - 1)) :
    decIntOfBits w (decNat (encInt w v)) = v := by
  have hsplit : 8 * w - 1 + 1 = 8 * w := by omega
  have hMK : (2 : Int) ^ (8 * w) = 2 ^ (8 * w - 1) * 2 := by
    rw [← pow_succ, hsplit]
  have hKpos : (0 : Int) < 2 ^ (8 * w - 1) := by positivity
  have hMpos : (0 : Int) < 2 ^ (8 * w) := by positivity
  have hr0 : 0 ≤ v % ((2 : Int) ^ (8 * w)) := Int.emod_nonneg v (by omega)
  have hrM : v % ((2 : Int) ^ (8 * w)) < 2 ^ (8 * w) := Int.emod_lt_of_pos v hMpos
  have hm : (v % ((2 : Int) ^ (8 * w))).toNat < 256 ^ w := by
    rw [pow256_eq]
    have hcast : ((2 ^ (8 * w) : Nat) : Int) = (2 : Int) ^ (8 * w) := by push_cast; ring
    omega
  rw [encInt, decNat_encNat _ _ hm]
  unfold decIntOfBits
  have hcastK : ((2 ^ (8 * w - 1) : Nat) : Int) = (2 : Int) ^ (8 * w - 1) := by
    push_cast; ring
  by_cases hv : 0 ≤ v
  · have hveq : v % ((2 : Int) ^ (8 * w)) = v := by
      apply Int.emod_eq_of_lt hv
      omega
    rw [hveq]
    have hcond : v.toNat < 2 ^ (8 * w - 1) := by omega
    rw [if_pos hcond]
    omega
  · push_neg at hv
    have hveq : v % ((2 : Int) ^ (8 * w)) = v + 2 ^ (8 * w) := by
      have h3 : (v + 2 ^ (8 * w)) % ((2 : Int) ^ (8 * w)) = v % ((2 : Int) ^ (8 * w)) := by
        rw [show v + (2 : Int) ^ (8 * w) = v + 2 ^ (8 * w) * 1 by ring,
          Int.add_mul_emod_self_left]
      rw [← h3]
      apply Int.emod_eq_of_lt (by omega) (by omega)
    rw [hveq]
    have hcond : ¬((v + 2 ^ (8 * w)).toNat < 2 ^ (8 * w - 1)) := by omega
    rw [if_neg hcond]
    omega

theorem serUInt_load (w v0 v : Nat) (hv : v < 256 ^ w) (pre rest : List Nat) :
    serUInt w ⟨AF_Loading, pre ++ (encNat w v ++ rest), pre.length⟩ v0
      = some (⟨AF_Loading, pre ++ (encNat w v ++ rest), pre.length + w⟩, v) := by
  have hr := readBytes_exact AF_Loading pre (encNat w v) rest
  rw [encNat_length] at hr
  simp [serUInt, isLoading_load, hr, decNat_encNat w v hv]

theorem serUInt_save (w v : Nat) (d : List Nat) :
    serUInt w ⟨AF_Saving, d, d.length⟩ v
      = some (⟨AF_Saving, d ++ encNat w v, d.length + w⟩, v) := by
  simp [serUInt, isLoading_save, isSaving_save, writeBytes_append, encNat_length]

theorem serInt_load (w : Nat) (hw : 1 ≤ w) (v0 v : Int)
    (h1 : -(2 ^ (8 * w - 1)) ≤ v) (h2 : v < 2 ^ (8 * w - 1)) (pre rest : List Nat) :
    serInt w ⟨AF_Loading, pre ++ (encInt w v ++ rest), pre.length⟩ v0
      = some (⟨AF_Loading, pre ++ (encInt w v ++ rest), pre.length + w⟩, v) := by
  have hr := readBytes_exact AF_Loading pre (encInt w v) rest
  rw [encInt_length] at hr
  simp [serInt, isLoading_load, hr, decIntOfBits_encInt w hw v h1 h2]

theorem serInt_save (w : Nat) (v : Int) (d : List Nat) :
    serInt w ⟨AF_Saving, d, d.length⟩ v
      = some (⟨AF_Saving, d ++ encInt w v, d.length + w⟩, v) := by
  simp [serInt, isLoading_save, isSaving_save, writeBytes_append, encInt_length]

theorem serBool_load (b0 b : Bool) (pre rest : List Nat) :
    serBool ⟨AF_Loading, pre ++ (if b then 1 else 0) :: rest, pre.length⟩ b0
      = some (⟨AF_Loading, pre ++ (if b then 1 else 0) :: rest, pre.length + 1⟩, b) := by
  cases b with
  | false =>
      have hr := readBytes_exact AF_Loading pre [0] rest
      rw [show ([0] : List Nat).length = 1 from rfl] at hr
      simp only [List.singleton_append] at hr
      simp [serBool, isLoading_load, hr, decNat]
  | true =>
      have hr := readBytes_exact AF_Loading pre [1] rest
      rw [show ([1] : List Nat).length = 1 from rfl] at hr
      simp only [List.singleton_append] at hr
      simp [serBool, isLoading_load, hr, decNat]

theorem serBool_save (b : Bool) (d : List Nat) :
    serBool ⟨AF_Saving, d, d.length⟩ b
      = some (⟨AF_Saving, d ++ [if b then 1 else 0], d.length + 1⟩, b) := by
  have hw := writeBytes_append [if b then 1 else 0] AF_Saving d
  rw [show ([if b then 1 else 0] : List Nat).length = 1 from rfl] at hw
  simp [serBool, isLoading_save, isSaving_save, hw]

theorem serStr_load (s0 s : List Nat) (hlen : s.length < 2 ^ 32) (pre rest : List Nat) :
    serStr ⟨AF_Loading, pre ++ (encNat 4 s.length ++ (s ++ rest)), pre.length⟩ s0
      = some (⟨AF_Loading, pre ++ (encNat 4 s.length ++ (s ++ rest)),
          pre.length + (4 + s.length)⟩, s) := by
  have h256 : s.length < 256 ^ 4 := by
    have : (256 : Nat) ^ 4 = 2 ^ 32 := by norm_num
    omega
  have hr1 := readBytes_exact AF_Loading pre (encNat 4 s.length) (s ++ rest)
  rw [encNat_length] at hr1
  have hr2 := readBytes_exact AF_Loading (pre ++ encNat 4 s.length) s rest
  have hassoc2 : (pre ++ encNat 4 s.length) ++ (s ++ rest)
      = pre ++ (encNat 4 s.length ++ (s ++ rest)) := by
    simp [List.append_assoc]
  have hplen : (pre ++ encNat 4 s.length).length = pre.length + 4 := by
    simp [List.length_append, encNat_length]
  rw [hassoc2, hplen] at hr2
  simp [serStr, isLoading_load, hr1, decNat_encNat 4 s.length h256, hr2]
  omega

theorem serStr_save (s : List Nat) (d : List Nat) :
    serStr ⟨AF_Saving, d, d.length⟩ s
      = some (⟨AF_Saving, d ++ (encNat 4 s.length ++ s), d.length + (4 + s.length)⟩, s) := by
  have hw1 := writeBytes_append (encNat 4 s.length) AF_Saving d
  rw [encNat_length] at hw1
  have hw2 := writeBytes_append s AF_Saving (d ++ encNat 4 s.length)
  have hplen : (d ++ encNat 4 s.length).length = d.length + 4 := by
    simp [List.length_append, encNat_length]
  rw [hplen] at hw2
  simp only [serStr, isLoading_save, isSaving_save, Bool.false_eq_true, if_false,
    if_true, hw1, hw2]
  simp [List.append_assoc]
  omega

theorem serPrim_load (v : PrimValue) (hwf : PrimWF v) (pre rest : List Nat) :
    serPrim ⟨AF_Loading, pre ++ (encodePrim v ++ rest), pre.length⟩
        (defaultPrim (primType v))
      = some (⟨AF_Loading, pre ++ (encodePrim v ++ rest),
          pre.length + (encodePrim v).length⟩, v) := by
  cases v with
  | pBool b =>
      simp [serPrim, encodePrim, primType, defaultPrim, serBool_load]
  | pI8 x =>
      simp only [PrimWF] at hwf
      simp [serPrim, encodePrim, primType, defaultPrim, encInt_length,
        serInt_load 1 (by norm_num) 0 x (by simpa using hwf.1) (by simpa using hwf.2)]
  | pU8 x =>
      simp only [PrimWF] at hwf
      simp [serPrim, encodePrim, primType, defaultPrim, encNat_length,
        serUInt_load 1 0 x (by simpa [pow256_eq] using hwf)]
  | pI16 x =>
      simp only [PrimWF] at hwf
      simp [serPrim, encodePrim, primType, defaultPrim, encInt_length,
        serInt_load 2 (by norm_num) 0 x (by simpa using hwf.1) (by simpa using hwf.2)]
  | pU16 x =>
      simp only [PrimWF] at hwf
      simp [serPrim, encodePrim, primType, defaultPrim, encNat_length,
        serUInt_load 2 0 x (by simpa [pow256_eq] using hwf)]
  | pI32 x =>
      simp only [PrimWF] at hwf
      simp [serPrim, encodePrim, primType, defaultPrim, encInt_length,
        serInt_load 4 (by norm_num) 0 x (by simpa using hwf.1) (by simpa using hwf.2)]
  | pU32 x =>
      simp only [PrimWF] at hwf
      simp [serPrim, encodePrim, primType, defaultPrim, encNat_length,
        serUInt_load 4 0 x (by simpa [pow256_eq] using hwf)]
  | pI64 x =>
      simp only [PrimWF] at hwf
      simp [serPrim, encodePrim, primType, defaultPrim, encInt_length,
        serInt_load 8 (by norm_num) 0 x (by simpa using hwf.1) (by simpa using hwf.2)]
  | pU64 x =>
      simp only [PrimWF] at hwf
      simp [serPrim, encodePrim, primType, defaultPrim, encNat_length,
        serUInt_load 8 0 x (by simpa [pow256_eq] using hwf)]
  | pF32 b =>
      simp only [PrimWF] at hwf
      simp [serPrim, encodePrim, primType, defaultPrim, encNat_length,
        serUInt_load 4 0 b (by simpa [pow256_eq] using hwf)]
  | pF64 b =>
      simp only [PrimWF] at hwf
      simp [serPrim, encodePrim, primType, defaultPrim, encNat_length,
        serUInt_load 8 0 b (by simpa [pow256_eq] using hwf)]
  | pStr s =>
      simp only [PrimWF] at hwf
      simp [serPrim, encodePrim, primType, defaultPrim,
        serStr_load [] s hwf.1, List.length_append, encNat_length]

theorem serPrim_save (v : PrimValue) (d : List Nat) :
    serPrim ⟨AF_Saving, d, d.length⟩ v
      = some (⟨AF_Saving, d ++ encodePrim v, d.length + (encodePrim v).length⟩, v) := by
  cases v with
  | pBool b => simp [serPrim, encodePrim, serBool_save]
  | pI8 x => simp [serPrim, encodePrim, serInt_save, encInt_length]
  | pU8 x => simp [serPrim, encodePrim, serUInt_save, encNat_length]
  | pI16 x => simp [serPrim, encodePrim, serInt_save, encInt_length]
  | pU16 x => simp [serPrim, encodePrim, serUInt_save, encNat_length]
  | pI32 x => simp [serPrim, encodePrim, serInt_save, encInt_length]
  | pU32 x => simp [serPrim, encodePrim, serUInt_save, encNat_length]
  | pI64 x => simp [serPrim, encodePrim, serInt_save, encInt_length]
  | pU64 x => simp [serPrim, encodePrim, serUInt_save, encNat_length]
  | pF32 b => simp [serPrim, encodePrim, serUInt_save, encNat_length]
  | pF64 b => simp [serPrim, encodePrim, serUInt_save, encNat_length]
  | pStr s =>
      simp [serPrim, encodePrim, serStr_save, List.length_append, encNat_length]

theorem serPrims_save (vs : List PrimValue) :
    ∀ d : List Nat,
    serPrims ⟨AF_Saving, d, d.length⟩ vs
      = some (⟨AF_Saving, d ++ encodePrims vs, d.length + (encodePrims vs).length⟩, vs) := by
  induction vs with
  | nil =>
      intro d
      simp [serPrims, encodePrims]
  | cons v vs ih =>
      intro d
      simp only [serPrims, serPrim_save v d]
      have hplen : d.length + (encodePrim v).length = (d ++ encodePrim v).length := by
        simp [List.length_append]
      rw [hplen]
      simp only [ih (d ++ encodePrim v)]
      simp [encodePrims, List.append_assoc, List.length_append]
      omega

theorem serPrims_load (vs : List PrimValue) :
    ∀ (pre rest : List Nat), (∀ v ∈ vs, PrimWF v) →
    serPrims ⟨AF_Loading, pre ++ (encodePrims vs ++ rest), pre.length⟩
        (vs.map (fun v => defaultPrim (primType v)))
      = some (⟨AF_Loading, pre ++ (encodePrims vs ++ rest),
          pre.length + (encodePrims vs).length⟩, vs) := by
  induction vs with
  | nil =>
      intro pre rest h
      simp [serPrims, encodePrims]
  | cons v vs ih =>
      intro pre rest h
      have hassoc : encodePrims (v :: vs) ++ rest
          = encodePrim v ++ (encodePrims vs ++ rest) := by
        simp [encodePrims, List.append_assoc]
      rw [hassoc]
      simp only [List.map_cons, serPrims,
        serPrim_load v (h v (by simp)) pre (encodePrims vs ++ rest)]
      have hassoc2 : pre ++ (encodePrim v ++ (encodePrims vs ++ rest))
          = (pre ++ encodePrim v) ++ (encodePrims vs ++ rest) := by
        simp [List.append_assoc]
      have hplen : pre.length + (encodePrim v).length = (pre ++ encodePrim v).length := by
        simp [List.length_append]
      rw [hassoc2, hplen]
      simp only [ih (pre ++ encodePrim v) rest (fun u hu => h u (by simp [hu]))]
      simp [encodePrims, List.append_assoc, List.length_append]
      omega

/-- C5: saving a sequence of well-formed primitive values in order to a
fresh saving memory archive writes their concatenated encodings and
leaves the values unchanged; loading through a fresh loading archive
over the same bytes into fresh default-initialized variables of the
same types reproduces the original values exactly - booleans, signed
and unsigned 8/16/32/64-bit integers, float and double (as IEEE-754
bit patterns) and strings, the empty string included. -/
theorem c5_roundtrip (vs : List PrimValue) (hwf : ∀ v ∈ vs, PrimWF v) :
    serPrims (memArchiveNew false) vs
      = some (⟨AF_Saving, encodePrims vs, (encodePrims vs).length⟩, vs) ∧
    serPrims (memArchiveOver (encodePrims vs) true)
        (vs.map (fun v => defaultPrim (primType v)))
      = some (⟨AF_Loading, encodePrims vs, (encodePrims vs).length⟩, vs) := by
  constructor
  · have h := serPrims_save vs []
    simpa [memArchiveNew] using h
  · have h := serPrims_load vs [] [] hwf
    simpa [memArchiveOver] using h

/-- Witness for C5 at a sequence exercising every primitive type,
including negative integers, extreme unsigned values, float/double bit
patterns, a nonempty string and the empty string. -/
theorem c5_roundtrip_witness :
    (∀ v ∈ [PrimValue.pBool true, PrimValue.pBool false, PrimValue.pI8 (-5),
        PrimValue.pU8 200, PrimValue.pI16 (-300), PrimValue.pU16 60000,
        PrimValue.pI32 (-70000), PrimValue.pU32 4000000000,
        PrimValue.pI64 (-5000000000), PrimValue.pU64 18446744073709551615,
        PrimValue.pF32 1078530011, PrimValue.pF64 4614256656552045848,
        PrimValue.pStr [104, 105], PrimValue.pStr []], PrimWF v) ∧
    serPrims (memArchiveOver (encodePrims [PrimValue.pBool true, PrimValue.pBool false,
          PrimValue.pI8 (-5), PrimValue.pU8 200, PrimValue.pI16 (-300),
          PrimValue.pU16 60000, PrimValue.pI32 (-70000), PrimValue.pU32 4000000000,
          PrimValue.pI64 (-5000000000), PrimValue.pU64 18446744073709551615,
          PrimValue.pF32 1078530011, PrimValue.pF64 4614256656552045848,
          PrimValue.pStr [104, 105], PrimValue.pStr []]) true)
        ([PrimValue.pBool true, PrimValue.pBool false, PrimValue.pI8 (-5),
          PrimValue.pU8 200, PrimValue.pI16 (-300), PrimValue.pU16 60000,
          PrimValue.pI32 (-70000), PrimValue.pU32 4000000000,
          PrimValue.pI64 (-5000000000), PrimValue.pU64 18446744073709551615,
          PrimValue.pF32 1078530011, PrimValue.pF64 4614256656552045848,
          PrimValue.pStr [104, 105], PrimValue.pStr []].map
            (fun v => defaultPrim (primType v)))
      = some (⟨AF_Loading, encodePrims [PrimValue.pBool true, PrimValue.pBool false,
          PrimValue.pI8 (-5), PrimValue.pU8 200, PrimValue.pI16 (-300),
          PrimValue.pU16 60000, PrimValue.pI32 (-70000), PrimValue.pU32 4000000000,
          PrimValue.pI64 (-5000000000), PrimValue.pU64 18446744073709551615,
          PrimValue.pF32 1078530011, PrimValue.pF64 4614256656552045848,
          PrimValue.pStr [104, 105], PrimValue.pStr []],
          (encodePrims [PrimValue.pBool true, PrimValue.pBool false,
            PrimValue.pI8 (-5), PrimValue.pU8 200, PrimValue.pI16 (-300),
            PrimValue.pU16 60000, PrimValue.pI32 (-70000), PrimValue.pU32 4000000000,
            PrimValue.pI64 (-5000000000), PrimValue.pU64 18446744073709551615,
            PrimValue.pF32 1078530011, PrimValue.pF64 4614256656552045848,
            PrimValue.pStr [104, 105], PrimValue.pStr []]).length⟩,
          [PrimValue.pBool true, PrimValue.pBool false, PrimValue.pI8 (-5),
            PrimValue.pU8 200, PrimValue.pI16 (-300), PrimValue.pU16 60000,
            PrimValue.pI32 (-70000), PrimValue.pU32 4000000000,
            PrimValue.pI64 (-5000000000), PrimValue.pU64 18446744073709551615,
            PrimValue.pF32 1078530011, PrimValue.pF64 4614256656552045848,
            PrimValue.pStr [104, 105], PrimValue.pStr []]) :=
  ⟨by decide,
    (c5_roundtrip [PrimValue.pBool true, PrimValue.pBool false, PrimValue.pI8 (-5),
        PrimValue.pU8 200, PrimValue.pI16 (-300), PrimValue.pU16 60000,
        PrimValue.pI32 (-70000), PrimValue.pU32 4000000000,
        PrimValue.pI64 (-5000000000), PrimValue.pU64 18446744073709551615,
        PrimValue.pF32 1078530011, PrimValue.pF64 4614256656552045848,
        PrimValue.pStr [104, 105], PrimValue.pStr []] (by decide)).2⟩

/-! ### Array serialization (`Archive::SerializeArray`, Archive.h
lines 72-87 - this template is in src/) -/

/-- `std::vector<T>::resize(n)`: keep the first `n` elements, append
default-constructed elements as needed. -/
def listResize {α : Type} (l : List α) (n : Nat) (dflt : α) : List α :=
  l.take n ++ List.replicate (n - l.length) dflt

/-- The per-element loop `for (auto& element : array) *this << element;`. -/
def serList {α : Type} (serElem : MemArchive → α → Option (MemArchive × α)) :
    MemArchive → List α → Option (MemArchive × List α)
  | a, [] => some (a, [])
  | a, x :: xs =>
      match serElem a x with
      | none => none
      | some (a1, x1) =>
          match serList serElem a1 xs with
          | none => none
          | some (a2, xs1) => some (a2, x1 :: xs1)

/-- `Archive::SerializeArray` (Archive.h lines 72-87):
`uint32_t size = array.size(); *this << size;` (overwritten with the
read count when Loading), then `if (IsLoading()) array.resize(size);`,
then each element is serialized in order.  The element `operator<<` is
the `serElem` parameter (the template's `T`). -/
def serializeArray {α : Type} (serElem : MemArchive → α → Option (MemArchive × α))
    (dflt : α) (a : MemArchive) (arr : List α) : Option (MemArchive × List α) :=
  match serUInt 4 a arr.length with
  | none => none
  | some (a1, size) =>
      serList serElem a1 (if isLoading a then listResize arr size dflt else arr)

/-- The bytes of a sequence of u32 elements. -/
def encU32s : List Nat → List Nat
  | [] => []
  | v :: vs => encNat 4 v ++ encU32s vs

theorem listResize_length {α : Type} (l : List α) (n : Nat) (dflt : α) :
    (listResize l n dflt).length = n := by
  simp only [listResize, List.length_append, List.length_take, List.length_replicate]
  omega

theorem serList_save_u32 (xs : List Nat) :
    ∀ d : List Nat,
    serList (serUInt 4) ⟨AF_Saving, d, d.length⟩ xs
      = some (⟨AF_Saving, d ++ encU32s xs, d.length + 4 * xs.length⟩, xs) := by
  induction xs with
  | nil =>
      intro d
      simp [serList, encU32s]
  | cons x xs ih =>
      intro d
      simp only [serList, serUInt_save 4 x d]
      have hplen : d.length + 4 = (d ++ encNat 4 x).length := by
        simp [List.length_append, encNat_length]
      rw [hplen]
      simp only [ih (d ++ encNat 4 x)]
      simp [encU32s, List.append_assoc, List.length_append, encNat_length]
      omega

theorem serList_load_u32 (ws : List Nat) :
    ∀ (inits : List Nat) (pre rest : List Nat),
    inits.length = ws.length → (∀ x ∈ ws, x < 2 ^ 32) →
    serList (serUInt 4) ⟨AF_Loading, pre ++ (encU32s ws ++ rest), pre.length⟩ inits
      = some (⟨AF_Loading, pre ++ (encU32s ws ++ rest),
          pre.length + 4 * ws.length⟩, ws) := by
  induction ws with
  | nil =>
      intro inits pre rest hl hb
      have hnil : inits = [] := List.eq_nil_of_length_eq_zero (by simpa using hl)
      subst hnil
      simp [serList, encU32s]
  | cons w ws ih =>
      intro inits pre rest hl hb
      cases inits with
      | nil => simp at hl
      | cons i0 inits =>
          have hw : w < 256 ^ 4 := by
            have h1 : w < 2 ^ 32 := hb w (by simp)
            have h2 : (256 : Nat) ^ 4 = 2 ^ 32 := by norm_num
            omega
          have hassoc : encU32s (w :: ws) ++ rest
              = encNat 4 w ++ (encU32s ws ++ rest) := by
            simp [encU32s, List.append_assoc]
          rw [hassoc]
          simp only [serList,
            serUInt_load 4 i0 w hw pre (encU32s ws ++ rest)]
          have hassoc2 : pre ++ (encNat 4 w ++ (encU32s ws ++ rest))
              = (pre ++ encNat 4 w) ++ (encU32s ws ++ rest) := by
            simp [List.append_assoc]
          have hplen : pre.length + 4 = (pre ++ encNat 4 w).length := by
            simp [List.length_append, encNat_length]
          rw [hassoc2, hplen]
          have hlen2 : inits.length = ws.length := by simpa using hl
          simp only [ih inits (pre ++ encNat 4 w) rest hlen2
            (fun u hu => hb u (by simp [hu]))]
          simp [List.append_assoc, List.length_append, encNat_length]
          omega

/-- C6: `SerializeArray` first serializes the length as an unsigned
32-bit count; when Saving it writes the current size and then the
elements in order, leaving the vector unchanged; when Loading it
resizes the destination to the read count (regardless of the
destination's previous contents) before the elements are loaded in
order; the empty vector round-trips as a 4-byte zero prefix with no
element bytes and no element operations.  Stated for u32 elements
(`serUInt 4`, default 0). -/
theorem c6_serializeArray (arr dest d ws pre rest : List Nat)
    (hws : ∀ x ∈ ws, x < 2 ^ 32) (hwslen : ws.length < 2 ^ 32)
    (hdest : dest.length = ws.length) :
    serializeArray (serUInt 4) 0 ⟨AF_Saving, d, d.length⟩ arr
      = some (⟨AF_Saving, d ++ (encNat 4 arr.length ++ encU32s arr),
          d.length + (4 + 4 * arr.length)⟩, arr) ∧
    serializeArray (serUInt 4) 0
        ⟨AF_Loading, pre ++ ((encNat 4 ws.length ++ encU32s ws) ++ rest), pre.length⟩ dest
      = some (⟨AF_Loading, pre ++ ((encNat 4 ws.length ++ encU32s ws) ++ rest),
          pre.length + (4 + 4 * ws.length)⟩, ws) ∧
    serializeArray (serUInt 4) 0 (memArchiveNew false) ([] : List Nat)
      = some (⟨AF_Saving, [0, 0, 0, 0], 4⟩, []) ∧
    serializeArray (serUInt 4) 0 (memArchiveOver [0, 0, 0, 0] true) dest
      = some (⟨AF_Loading, [0, 0, 0, 0], 4⟩, []) := by
  refine ⟨?_, ?_, by decide, ?_⟩
  · have h1 := serUInt_save 4 arr.length d
    simp only [serializeArray, h1, isLoading_save, Bool.false_eq_true, if_false]
    have hplen : d.length + 4 = (d ++ encNat 4 arr.length).length := by
      simp [List.length_append, encNat_length]
    rw [hplen]
    simp only [serList_save_u32 arr (d ++ encNat 4 arr.length)]
    simp [List.append_assoc, List.length_append, encNat_length]
    omega
  · have hw : ws.length < 256 ^ 4 := by
      have : (256 : Nat) ^ 4 = 2 ^ 32 := by norm_num
      omega
    have hassoc : (encNat 4 ws.length ++ encU32s ws) ++ rest
        = encNat 4 ws.length ++ (encU32s ws ++ rest) := by
      simp [List.append_assoc]
    rw [hassoc]
    have h1 := serUInt_load 4 dest.length ws.length hw pre (encU32s ws ++ rest)
    simp only [serializeArray, h1, isLoading_load, eq_self_iff_true, if_true]
    have hassoc2 : pre ++ (encNat 4 ws.length ++ (encU32s ws ++ rest))
        = (pre ++ encNat 4 ws.length) ++ (encU32s ws ++ rest) := by
      simp [List.append_assoc]
    have hplen : pre.length + 4 = (pre ++ encNat 4 ws.length).length := by
      simp [List.length_append, encNat_length]
    rw [hassoc2, hplen]
    simp only [serList_load_u32 ws (listResize dest ws.length 0)
      (pre ++ encNat 4 ws.length) rest (listResize_length dest ws.length 0) hws]
    simp [List.append_assoc, List.length_append, encNat_length]
    omega
  · have h1 : serUInt 4 (memArchiveOver [0, 0, 0, 0] true) dest.length
        = some (⟨AF_Loading, [0, 0, 0, 0], 4⟩, 0) := by
      simp [serUInt, memArchiveOver, isLoading, AF_Loading, readBytes, decNat]
    simp only [serializeArray, h1]
    have hload : isLoading (memArchiveOver [0, 0, 0, 0] true) = true := by decide
    rw [hload]
    simp only [eq_self_iff_true, if_true]
    have hres : listResize dest 0 0 = [] := by
      simp [listResize]
    rw [hres]
    simp [serList, memArchiveOver]

/-- Witness for C6 at arr = [1,2,3] saved from a fresh buffer. -/
theorem c6_serializeArray_witness :
    serializeArray (serUInt 4) 0 ⟨AF_Saving, [], ([] : List Nat).length⟩ [1, 2, 3]
      = some (⟨AF_Saving, [] ++ (encNat 4 ([1, 2, 3] : List Nat).length ++ encU32s [1, 2, 3]),
          ([] : List Nat).length + (4 + 4 * ([1, 2, 3] : List Nat).length)⟩, [1, 2, 3]) :=
  (c6_serializeArray [1, 2, 3] [9, 9] [] [5, 6] [] []
    (by decide) (by decide) (by decide)).1

/-- C7: the code evaluated at the failing input.  Loading an array from
a `MemoryArchive` over the four bytes FF FF FF FF, `SerializeArray`
reads the length prefix 4294967295 and passes the destination vector
resized to 4294967295 elements straight to the per-element loop: no
plausibility bound is applied and no resource-exhaustion error kind
exists on the path from the prefix to the `resize`. -/
theorem c7_unbounded_resize :
    serUInt 4 (memArchiveOver [255, 255, 255, 255] true) 0
      = some (⟨AF_Loading, [255, 255, 255, 255], 4⟩, 4294967295) ∧
    serializeArray (serUInt 4) 0 (memArchiveOver [255, 255, 255, 255] true)
        ([] : List Nat)
      = serList (serUInt 4) ⟨AF_Loading, [255, 255, 255, 255], 4⟩
          (listResize ([] : List Nat) 4294967295 0) ∧
    (listResize ([] : List Nat) 4294967295 0).length = 4294967295 := by
  refine ⟨by decide, ?_, ?_⟩
  · have h1 : serUInt 4 (memArchiveOver [255, 255, 255, 255] true)
        (([] : List Nat)).length
        = some (⟨AF_Loading, [255, 255, 255, 255], 4⟩, 4294967295) := by decide
    rw [serializeArray, h1]
    rfl
  · simp only [listResize, List.take_nil, List.nil_append, List.length_replicate,
      List.length_nil, Nat.sub_zero]

end Titan
